import Mathlib

/-!
Verification of the image rectification pipeline of the SM2AF repository
(`src/scanner.py`, function `enhance_scanned_image`, with an identical copy
in `sheet_music_processsor.py`).

The pipeline, after the external edge detector (`cv2.Canny`) and contour
extractor (`cv2.findContours`) have produced a list of contours, proceeds:

1. sort the contours by `cv2.contourArea`, descending (Python `sorted` with
   `reverse=True`, a stable sort);
2. scan them in that order, approximating each with `cv2.approxPolyDP` at
   tolerance `0.02 * arcLength`; the first approximation with exactly 4
   vertices is taken as the document contour, otherwise the full image
   frame `[[0,0],[W,0],[W,H],[0,H]]` is used as fallback;
3. `reorder` labels the 4 points as TL/TR/BR/BL using `s = x + y` and
   `diff = y - x` with `np.argmin` / `np.argmax` (first occurrence on ties);
4. the destination size is `width = max(|BR-BL|, |TR-TL|)`,
   `height = max(|TR-BR|, |TL-BL|)`, truncated by Python `int(...)` when
   passed to `cv2.warpPerspective`;
5. `cv2.adaptiveThreshold(gray, 255, ADAPTIVE_THRESH_GAUSSIAN_C,
   THRESH_BINARY, 11, 10)` binarizes the warped image.

Contour points produced by `cv2.findContours` / `cv2.approxPolyDP` have
integer coordinates, so all point arithmetic is embedded over `ℤ`; the
float32 values flowing through the numpy code are exact on this data.
-/

namespace SM2AF

/-- A 2-D point with integer coordinates, as produced by the contour
extractor and polygon approximation. -/
abbrev Point := ℤ × ℤ

/-- An unordered 4-point quadrilateral candidate (`doc_cnt` reshaped to
`(4, 2)` in the source). -/
structure Quad where
  p0 : Point
  p1 : Point
  p2 : Point
  p3 : Point
deriving DecidableEq, Repr

/-- The labeled corner set produced by `reorder`: `new_pts[0] = tl`,
`new_pts[1] = tr`, `new_pts[2] = br`, `new_pts[3] = bl`. -/
structure CornerSet where
  tl : Point
  tr : Point
  br : Point
  bl : Point
deriving DecidableEq, Repr

/-- Indexing of the four quad points in input order. -/
def get4 (q : Quad) : Fin 4 → Point
  | 0 => q.p0
  | 1 => q.p1
  | 2 => q.p2
  | 3 => q.p3

/-- Embedding of `pts.sum(axis=1)` for one point: `s = x + y`. -/
def sumXY (p : Point) : ℤ := p.1 + p.2

/-- Embedding of `np.diff(pts, axis=1)` for one point: `diff = y - x`. -/
def diffYX (p : Point) : ℤ := p.2 - p.1

/-- Embedding of `np.argmin` on a length-4 array: the first index attaining
the minimum (numpy documents first-occurrence on ties). -/
def argmin4 (v : Fin 4 → ℤ) : Fin 4 :=
  if v 0 ≤ v 1 ∧ v 0 ≤ v 2 ∧ v 0 ≤ v 3 then 0
  else if v 1 ≤ v 2 ∧ v 1 ≤ v 3 then 1
  else if v 2 ≤ v 3 then 2
  else 3

/-- Embedding of `np.argmax` on a length-4 array: the first index attaining
the maximum (numpy documents first-occurrence on ties). -/
def argmax4 (v : Fin 4 → ℤ) : Fin 4 :=
  if v 1 ≤ v 0 ∧ v 2 ≤ v 0 ∧ v 3 ≤ v 0 then 0
  else if v 2 ≤ v 1 ∧ v 3 ≤ v 1 then 1
  else if v 3 ≤ v 2 then 2
  else 3

/-- Embedding of the source function `reorder`:
`new_pts[0] = pts[np.argmin(s)]`, `new_pts[2] = pts[np.argmax(s)]`,
`new_pts[1] = pts[np.argmin(diff)]`, `new_pts[3] = pts[np.argmax(diff)]`. -/
def reorder (q : Quad) : CornerSet where
  tl := get4 q (argmin4 fun i => sumXY (get4 q i))
  tr := get4 q (argmin4 fun i => diffYX (get4 q i))
  br := get4 q (argmax4 fun i => sumXY (get4 q i))
  bl := get4 q (argmax4 fun i => diffYX (get4 q i))

/-- The index returned by `argmin4` is the first index attaining the
minimum: this property (together with `firstMaxAt`) pins down the
numpy tie-breaking behaviour. -/
def firstMinAt (v : Fin 4 → ℤ) (i : Fin 4) : Prop :=
  (∀ j, v i ≤ v j) ∧ ∀ j, j < i → v i < v j

/-- First index attaining the maximum. -/
def firstMaxAt (v : Fin 4 → ℤ) (i : Fin 4) : Prop :=
  (∀ j, v j ≤ v i) ∧ ∀ j, j < i → v j < v i

theorem fin4_all (P : Fin 4 → Prop) (h : P 0 ∧ P 1 ∧ P 2 ∧ P 3) : ∀ j, P j := by
  intro j
  match j with
  | 0 => exact h.1
  | 1 => exact h.2.1
  | 2 => exact h.2.2.1
  | 3 => exact h.2.2.2

theorem argmin4_le (v : Fin 4 → ℤ) : ∀ i, v (argmin4 v) ≤ v i := by
  apply fin4_all
  unfold argmin4
  split_ifs <;> refine ⟨?_, ?_, ?_, ?_⟩ <;> omega

theorem argmax4_le (v : Fin 4 → ℤ) : ∀ i, v i ≤ v (argmax4 v) := by
  apply fin4_all
  unfold argmax4
  split_ifs <;> refine ⟨?_, ?_, ?_, ?_⟩ <;> omega

theorem argmin4_lt_of_lt (v : Fin 4 → ℤ) : ∀ j, j < argmin4 v → v (argmin4 v) < v j := by
  apply fin4_all
  unfold argmin4
  split_ifs <;> refine ⟨?_, ?_, ?_, ?_⟩ <;> intro h <;>
    first
      | exact absurd h (by decide)
      | omega

theorem argmax4_lt_of_lt (v : Fin 4 → ℤ) : ∀ j, j < argmax4 v → v j < v (argmax4 v) := by
  apply fin4_all
  unfold argmax4
  split_ifs <;> refine ⟨?_, ?_, ?_, ?_⟩ <;> intro h <;>
    first
      | exact absurd h (by decide)
      | omega

theorem argmin4_firstMinAt (v : Fin 4 → ℤ) : firstMinAt v (argmin4 v) :=
  ⟨argmin4_le v, argmin4_lt_of_lt v⟩

theorem argmax4_firstMaxAt (v : Fin 4 → ℤ) : firstMaxAt v (argmax4 v) :=
  ⟨argmax4_le v, argmax4_lt_of_lt v⟩

theorem firstMinAt_unique (v : Fin 4 → ℤ) (i : Fin 4) (h : firstMinAt v i) :
    i = argmin4 v := by
  rcases lt_trichotomy i (argmin4 v) with hlt | heq | hgt
  · exact absurd (h.1 (argmin4 v)) (not_le.mpr (argmin4_lt_of_lt v i hlt))
  · exact heq
  · exact absurd (argmin4_le v i) (not_le.mpr (h.2 (argmin4 v) hgt))

theorem firstMaxAt_unique (v : Fin 4 → ℤ) (i : Fin 4) (h : firstMaxAt v i) :
    i = argmax4 v := by
  rcases lt_trichotomy i (argmax4 v) with hlt | heq | hgt
  · exact absurd (h.1 (argmax4 v)) (not_le.mpr (argmax4_lt_of_lt v i hlt))
  · exact heq
  · exact absurd (argmax4_le v i) (not_le.mpr (h.2 (argmax4 v) hgt))

/-- If `A` occurs among the quad points and strictly minimizes `f` over all
other points, then the `argmin4` selection returns exactly `A`. -/
theorem get4_argmin4_eq (q : Quad) (f : Point → ℤ) (A : Point)
    (hmem : ∃ i, get4 q i = A)
    (hstrict : ∀ i, get4 q i ≠ A → f A < f (get4 q i)) :
    get4 q (argmin4 fun i => f (get4 q i)) = A := by
  obtain ⟨i0, hi0⟩ := hmem
  by_contra hne
  have h1 := hstrict _ hne
  have h2 := argmin4_le (fun i => f (get4 q i)) i0
  simp only [hi0] at h2
  omega

/-- If `A` occurs among the quad points and strictly maximizes `f` over all
other points, then the `argmax4` selection returns exactly `A`. -/
theorem get4_argmax4_eq (q : Quad) (f : Point → ℤ) (A : Point)
    (hmem : ∃ i, get4 q i = A)
    (hstrict : ∀ i, get4 q i ≠ A → f (get4 q i) < f A) :
    get4 q (argmax4 fun i => f (get4 q i)) = A := by
  obtain ⟨i0, hi0⟩ := hmem
  by_contra hne
  have h1 := hstrict _ hne
  have h2 := argmax4_le (fun i => f (get4 q i)) i0
  simp only [hi0] at h2
  omega

/-- C4: for every QuadCandidate of 4 points, `reorder` labels TL as a point
minimizing `s = x + y`, BR as a point maximizing `s`, TR as a point
minimizing `d = y - x`, and BL as a point maximizing `d`; each label is one
of the input points. -/
theorem C4_reorder_labels_extremes (q : Quad) :
    ((∃ i, get4 q i = (reorder q).tl) ∧ ∀ i, sumXY (reorder q).tl ≤ sumXY (get4 q i)) ∧
    ((∃ i, get4 q i = (reorder q).br) ∧ ∀ i, sumXY (get4 q i) ≤ sumXY (reorder q).br) ∧
    ((∃ i, get4 q i = (reorder q).tr) ∧ ∀ i, diffYX (reorder q).tr ≤ diffYX (get4 q i)) ∧
    ((∃ i, get4 q i = (reorder q).bl) ∧ ∀ i, diffYX (get4 q i) ≤ diffYX (reorder q).bl) :=
  ⟨⟨⟨_, rfl⟩, argmin4_le fun i => sumXY (get4 q i)⟩,
   ⟨⟨_, rfl⟩, argmax4_le fun i => sumXY (get4 q i)⟩,
   ⟨⟨_, rfl⟩, argmin4_le fun i => diffYX (get4 q i)⟩,
   ⟨⟨_, rfl⟩, argmax4_le fun i => diffYX (get4 q i)⟩⟩

/-- C10: `reorder` is total and deterministic; each of the four selections
resolves ties by taking the first index attaining the extreme (the numpy
`argmin`/`argmax` convention), and that index is unique with this property. -/
theorem C10_reorder_tiebreak_first (q : Quad) :
    (reorder q = ⟨get4 q (argmin4 fun i => sumXY (get4 q i)),
                  get4 q (argmin4 fun i => diffYX (get4 q i)),
                  get4 q (argmax4 fun i => sumXY (get4 q i)),
                  get4 q (argmax4 fun i => diffYX (get4 q i))⟩) ∧
    firstMinAt (fun i => sumXY (get4 q i)) (argmin4 fun i => sumXY (get4 q i)) ∧
    firstMaxAt (fun i => sumXY (get4 q i)) (argmax4 fun i => sumXY (get4 q i)) ∧
    firstMinAt (fun i => diffYX (get4 q i)) (argmin4 fun i => diffYX (get4 q i)) ∧
    firstMaxAt (fun i => diffYX (get4 q i)) (argmax4 fun i => diffYX (get4 q i)) ∧
    (∀ i, firstMinAt (fun i => sumXY (get4 q i)) i → i = argmin4 fun i => sumXY (get4 q i)) ∧
    (∀ i, firstMaxAt (fun i => diffYX (get4 q i)) i → i = argmax4 fun i => diffYX (get4 q i)) :=
  ⟨rfl, argmin4_firstMinAt _, argmax4_firstMaxAt _, argmin4_firstMinAt _,
   argmax4_firstMaxAt _, fun i => firstMinAt_unique _ i, fun i => firstMaxAt_unique _ i⟩

/-- Squared Euclidean distance between two integer points; the float
`np.linalg.norm(p - q)` of the source equals the real square root of this
value exactly on integer data. -/
def sqDist (p q : Point) : ℕ := (p.1 - q.1).natAbs ^ 2 + (p.2 - q.2).natAbs ^ 2

/-- Square of the source float `width = max(np.linalg.norm(br - bl),
np.linalg.norm(tr - tl))`: the real square root is monotone, so the max of
the two norms is the square root of `widthSq`. -/
def widthSq (cs : CornerSet) : ℕ := max (sqDist cs.br cs.bl) (sqDist cs.tr cs.tl)

/-- Square of `height = max(np.linalg.norm(tr - br), np.linalg.norm(tl - bl))`. -/
def heightSq (cs : CornerSet) : ℕ := max (sqDist cs.tr cs.br) (sqDist cs.tl cs.bl)

/-- Auxiliary downward search: `isqrtAux n m` is the largest `l ≤ m` with
`l * l ≤ n`. -/
def isqrtAux (n : ℕ) : ℕ → ℕ
  | 0 => 0
  | m + 1 => if (m + 1) * (m + 1) ≤ n then m + 1 else isqrtAux n m

/-- Structural integer square root: `isqrt n = ⌊√n⌋` (see
`isqrt_eq_sqrt`). -/
def isqrt (n : ℕ) : ℕ := isqrtAux n n

theorem isqrtAux_sq_le (n : ℕ) : ∀ m, isqrtAux n m * isqrtAux n m ≤ n
  | 0 => by simp [isqrtAux]
  | m + 1 => by
    unfold isqrtAux
    split_ifs with h
    · exact h
    · exact isqrtAux_sq_le n m

theorem lt_isqrtAux_succ_sq (n : ℕ) :
    ∀ m, n < (m + 1) * (m + 1) → n < (isqrtAux n m + 1) * (isqrtAux n m + 1)
  | 0, h => by simpa [isqrtAux] using h
  | m + 1, h => by
    unfold isqrtAux
    split_ifs with h2
    · exact h
    · exact lt_isqrtAux_succ_sq n m (Nat.not_le.mp h2)

theorem isqrt_sq_le (n : ℕ) : isqrt n * isqrt n ≤ n := isqrtAux_sq_le n n

theorem lt_isqrt_succ_sq (n : ℕ) : n < (isqrt n + 1) * (isqrt n + 1) :=
  lt_isqrtAux_succ_sq n n (by nlinarith)

theorem isqrt_eq_sqrt (n : ℕ) : isqrt n = Nat.sqrt n :=
  (Nat.eq_sqrt.mpr ⟨isqrt_sq_le n, lt_isqrt_succ_sq n⟩)

/-- Embedding of `int(width)` at the `cv2.warpPerspective` call: Python
`int` truncates toward zero, the width is a nonnegative real, so
`int(width) = ⌊√(widthSq cs)⌋ = isqrt (widthSq cs)`. -/
def dstWidth (cs : CornerSet) : ℕ := isqrt (widthSq cs)

/-- Embedding of `int(height)` at the `cv2.warpPerspective` call. -/
def dstHeight (cs : CornerSet) : ℕ := isqrt (heightSq cs)

/-- Modelled from the spec: the claimed destination extent rounds the real
length `√n` "to the nearest integer ≥ 0". Since `4 * n` is never an odd
square, `√n` is never exactly halfway between integers, and the nearest
integer to `√n` is `isqrt n + 1` exactly when `isqrt n * (isqrt n + 1) < n`. -/
def roundSqrt (n : ℕ) : ℕ :=
  if isqrt n * (isqrt n + 1) < n then isqrt n + 1 else isqrt n

/-- A contour: the ordered point list of a closed polygon found by the
external contour extractor. -/
abbrev Contour := List Point

/-- Cross product of two points viewed as vectors. -/
def cross2 (p q : Point) : ℤ := p.1 * q.2 - p.2 * q.1

/-- Twice the signed shoelace area of a closed polygon: `cv2.contourArea`
is the absolute value of half of this. -/
def shoelace (c : Contour) : ℤ :=
  ((c.zip (c.rotateLeft 1)).map fun pq => cross2 pq.1 pq.2).sum

/-- Sort key: twice `cv2.contourArea` (all comparisons agree with the
area itself). -/
def contourArea2 (c : Contour) : ℕ := (shoelace c).natAbs

/-- Stable descending insertion by area: the new contour goes in front of
the first element whose area does not exceed it. -/
def insertByArea (c : Contour) : List Contour → List Contour
  | [] => [c]
  | d :: ds =>
    if contourArea2 d ≤ contourArea2 c then c :: d :: ds
    else d :: insertByArea c ds

/-- Embedding of `sorted(contours, key=cv2.contourArea, reverse=True)`:
Python `sorted` is a stable sort, every stable sort by one key computes the
same list, and this insertion sort is stable by construction. -/
def sortContours (cs : List Contour) : List Contour :=
  cs.foldr insertByArea []

/-- Descending-by-area order between contours. -/
def areaGe (a b : Contour) : Prop := contourArea2 b ≤ contourArea2 a

theorem insertByArea_perm (c : Contour) (l : List Contour) :
    (insertByArea c l).Perm (c :: l) := by
  induction l with
  | nil => simp [insertByArea]
  | cons d ds ih =>
    unfold insertByArea
    split_ifs
    · exact List.Perm.refl _
    · exact (ih.cons d).trans (List.Perm.swap c d ds)

theorem sortContours_perm (cs : List Contour) : (sortContours cs).Perm cs := by
  induction cs with
  | nil => rfl
  | cons c cs ih => exact (insertByArea_perm c (sortContours cs)).trans (ih.cons c)

theorem mem_insertByArea (c x : Contour) (l : List Contour)
    (h : x ∈ insertByArea c l) : x = c ∨ x ∈ l := by
  induction l with
  | nil => simpa [insertByArea] using h
  | cons d ds ih =>
    unfold insertByArea at h
    split_ifs at h
    · rcases List.mem_cons.mp h with h | h
      · exact Or.inl h
      · exact Or.inr h
    · rcases List.mem_cons.mp h with h | h
      · exact Or.inr (h ▸ List.mem_cons_self d ds)
      · rcases ih h with h | h
        · exact Or.inl h
        · exact Or.inr (List.mem_cons_of_mem d h)

theorem sorted_insertByArea (c : Contour) (l : List Contour)
    (h : List.Sorted areaGe l) : List.Sorted areaGe (insertByArea c l) := by
  induction l with
  | nil => simp [insertByArea, List.sorted_singleton]
  | cons d ds ih =>
    rw [List.sorted_cons] at h
    unfold insertByArea
    split_ifs with hc
    · rw [List.sorted_cons]
      refine ⟨?_, ?_⟩
      · intro b hb
        rcases List.mem_cons.mp hb with rfl | hb
        · exact hc
        · exact le_trans (h.1 b hb) hc
      · rw [List.sorted_cons]
        exact h
    · rw [List.sorted_cons]
      refine ⟨?_, ih h.2⟩
      intro b hb
      rcases mem_insertByArea c b ds hb with rfl | hb
      · exact le_of_not_le hc
      · exact h.1 b hb

theorem sortContours_sorted (cs : List Contour) :
    List.Sorted areaGe (sortContours cs) := by
  induction cs with
  | nil => simp [sortContours]
  | cons c cs ih => exact sorted_insertByArea c (sortContours cs) ih

/-- The fallback document contour `[[0,0],[W,0],[W,H],[0,H]]`, built from
`img.shape[1] = W` and `img.shape[0] = H`. -/
def fullFrame (W H : ℕ) : Contour :=
  [((0 : ℤ), (0 : ℤ)), ((W : ℤ), (0 : ℤ)), ((W : ℤ), (H : ℤ)), ((0 : ℤ), (H : ℤ))]

/-- Embedding of the document-contour selection loop: scan the sorted
contours; the first whose polygon approximation (`approx`, abstracting
`cv2.approxPolyDP(c, 0.02 * cv2.arcLength(c, True), True)`) has exactly 4
vertices is taken; if none qualifies, fall back to the full frame. -/
def selectDoc (approx : Contour → Contour) (W H : ℕ) (contours : List Contour) : Contour :=
  match (sortContours contours).find? (fun c => (approx c).length == 4) with
  | some c => approx c
  | none => fullFrame W H

/-- Reshape of the selected 4-point contour into a quad (`pts.reshape(4, 2)`). -/
def toQuad (c : Contour) : Quad where
  p0 := c.getD 0 (0, 0)
  p1 := c.getD 1 (0, 0)
  p2 := c.getD 2 (0, 0)
  p3 := c.getD 3 (0, 0)

/-- A single-channel raster: width, height, and pixel values. -/
structure Img where
  W : ℕ
  H : ℕ
  pix : ℕ → ℕ → ℕ

/-- Pixel read with replicated borders (the border handling of the OpenCV
smoothing window): coordinates are clamped to the raster. -/
def Img.pixAt (img : Img) (x y : ℕ) : ℕ :=
  img.pix (min x (img.W - 1)) (min y (img.H - 1))

/-- An 11x11 window of nonnegative fixed-point smoothing weights; the
Gaussian adaptive threshold uses such a window normalized by the total
weight. -/
abbrev Kern := ℕ → ℕ → ℕ

/-- Total kernel weight: the fixed-point denominator of the weighted mean. -/
def ksum (k : Kern) : ℕ := ∑ i ∈ Finset.range 11, ∑ j ∈ Finset.range 11, k i j

/-- Weighted pixel sum of the 11x11 neighborhood of `(x, y)`: the numerator
of the Gaussian-weighted mean (the mean itself is `wsum / ksum`; note that
`x + i - 5` truncates at 0, which is exactly left/top border replication). -/
def wsum (k : Kern) (img : Img) (x y : ℕ) : ℕ :=
  ∑ i ∈ Finset.range 11, ∑ j ∈ Finset.range 11,
    k i j * img.pixAt (x + i - 5) (y + j - 5)

/-- Embedding of one output pixel of `cv2.adaptiveThreshold(gray, 255,
ADAPTIVE_THRESH_GAUSSIAN_C, THRESH_BINARY, 11, 10)`: the pixel becomes 255
iff `src > mean - 10`, i.e. iff `wsum < (src + 10) * ksum`. -/
def binarizePix (k : Kern) (img : Img) (x y : ℕ) : ℕ :=
  if wsum k img x y < (img.pixAt x y + 10) * ksum k then 255 else 0

/-- The Binarizer stage: same dimensions, thresholded pixels. -/
def binarizeImg (k : Kern) (img : Img) : Img where
  W := img.W
  H := img.H
  pix := fun x y => binarizePix k img x y

/-- The pipeline's hard failure: rectification with a non-positive
destination size aborts (`cv2.warpPerspective` rejects an empty destination
raster; no other stage of the core can fail). -/
inductive PipeError where
  | geometryError
deriving DecidableEq

/-- The PerspectiveRectifier: on a non-positive destination size the stage
fails with the geometry error; otherwise it yields the warped raster, whose
pixel content `warp` abstracts the external homography resampling
(`cv2.getPerspectiveTransform` followed by `cv2.warpPerspective`). -/
def rectify (cs : CornerSet) (warp : ℕ → ℕ → ℕ) : Except PipeError Img :=
  if dstWidth cs = 0 ∨ dstHeight cs = 0 then Except.error PipeError.geometryError
  else Except.ok { W := dstWidth cs, H := dstHeight cs, pix := warp }

/-- The core pipeline of `enhance_scanned_image` after edge detection:
contour ranking and 4-vertex selection, corner ordering, perspective
rectification, and adaptive-threshold binarization. -/
def enhancePipeline (approx : Contour → Contour) (W H : ℕ)
    (contours : List Contour) (warp : ℕ → ℕ → ℕ) (k : Kern) : Except PipeError Img :=
  (rectify (reorder (toQuad (selectDoc approx W H contours))) warp).map (binarizeImg k)

/-- Quad used as concrete input for the C10 witness: its `s`-minimum is
attained only at index 3. -/
def qTie : Quad := ⟨(5, 5), (3, 1), (2, 1), (1, 1)⟩

/-- Witness for C10 at a concrete quad: index 0 lies before the selected
`s`-argmin index, so the selected value is strictly below the value at 0,
and the tie-break clauses are discharged concretely. -/
theorem C10_reorder_tiebreak_first_witness :
    sumXY (get4 qTie (argmin4 fun i => sumXY (get4 qTie i))) < sumXY (get4 qTie 0) :=
  (C10_reorder_tiebreak_first qTie).2.1.2 0 (by decide)

theorem isqrt_sq (n : ℕ) : isqrt (n ^ 2) = n := by
  rw [isqrt_eq_sqrt]
  exact Nat.sqrt_eq' n

theorem binarizePix_mem (k : Kern) (img : Img) (x y : ℕ) :
    binarizePix k img x y = 0 ∨ binarizePix k img x y = 255 := by
  unfold binarizePix
  split_ifs
  · exact Or.inr rfl
  · exact Or.inl rfl

theorem binarizeImg_pix_mem (k : Kern) (img : Img) (x y : ℕ) :
    (binarizeImg k img).pix x y = 0 ∨ (binarizeImg k img).pix x y = 255 := by
  simp only [binarizeImg]
  exact binarizePix_mem k img x y

/-- Corner set exercising the rounding mode of the rectifier: both width
candidate distances equal `√8 ≈ 2.83`, both height distances equal 3. -/
def csRound : CornerSet := ⟨(0, 0), (2, 2), (2, 5), (0, 3)⟩

/-- Identity polygon approximation, used for concrete witnesses (an
approximation that never simplifies any contour). -/
def approxId : Contour → Contour := fun c => c

/-- Degenerate 4-point contour whose points coincide. -/
def cDeg : Contour := [(0, 0), (0, 0), (0, 0), (0, 0)]

/-- Trivial warped-content provider for concrete witnesses. -/
def warp0 : ℕ → ℕ → ℕ := fun _ _ => 0

/-- Concrete kernel for witnesses: all weight on the center tap. -/
def kDelta : Kern := fun i j => if i = 5 ∧ j = 5 then 1 else 0

/-- C3 counterexample: at `csRound` the real width is `√8 ≈ 2.83`; the code
truncates (`int(width)`) to a destination width of 2, while the claimed
round-to-nearest value is 3, so the output raster is not `round(width)`
pixels wide. -/
theorem C3_counterexample :
    dstWidth csRound = 2 ∧ roundSqrt (widthSq csRound) = 3 ∧
    dstWidth csRound ≠ roundSqrt (widthSq csRound) ∧
    (rectify csRound warp0).toOption.map (fun i => i.W) = some 2 := by decide

/-- C3 amended: the rectifier computes `width = max(|BR-BL|, |TR-TL|)` and
`height = max(|TR-BR|, |TL-BL|)` but truncates them toward zero (floor, not
round-to-nearest) when sizing the output raster: the destination width and
height are the unique naturals whose squares bracket `widthSq`/`heightSq`,
and when both are positive the output raster is exactly that size (the
destination corner rectangle itself is built from the untruncated reals
`width - 1`, `height - 1`). -/
theorem C3_rectifier_truncates (cs : CornerSet) (warp : ℕ → ℕ → ℕ) :
    dstWidth cs * dstWidth cs ≤ widthSq cs ∧
    widthSq cs < (dstWidth cs + 1) * (dstWidth cs + 1) ∧
    dstHeight cs * dstHeight cs ≤ heightSq cs ∧
    heightSq cs < (dstHeight cs + 1) * (dstHeight cs + 1) ∧
    (rectify cs warp).toOption.map (fun i => (i.W, i.H)) =
      (if dstWidth cs = 0 ∨ dstHeight cs = 0 then none
       else some (dstWidth cs, dstHeight cs)) := by
  refine ⟨isqrt_sq_le _, lt_isqrt_succ_sq _, isqrt_sq_le _, lt_isqrt_succ_sq _, ?_⟩
  unfold rectify
  split_ifs <;> rfl

/-- C1: the pipeline fails exactly when the computed destination width or
height is zero (`≤ 0` over the naturals), every failure is the geometry
error, and no other stage can fail: the selector always produces a
candidate (full-frame fallback), and corner ordering and binarization are
total. -/
theorem C1_geometryError_iff (approx : Contour → Contour) (W H : ℕ)
    (contours : List Contour) (warp : ℕ → ℕ → ℕ) (k : Kern) :
    ((∃ e, enhancePipeline approx W H contours warp k = Except.error e) ↔
      (dstWidth (reorder (toQuad (selectDoc approx W H contours))) = 0 ∨
       dstHeight (reorder (toQuad (selectDoc approx W H contours))) = 0)) ∧
    (∀ e, enhancePipeline approx W H contours warp k = Except.error e →
      e = PipeError.geometryError) := by
  refine ⟨⟨?_, ?_⟩, fun e _ => by cases e; rfl⟩
  · rintro ⟨e, he⟩
    unfold enhancePipeline rectify at he
    by_contra hc
    rw [if_neg hc] at he
    exact absurd he (by simp [Except.map])
  · intro hc
    refine ⟨PipeError.geometryError, ?_⟩
    unfold enhancePipeline rectify
    rw [if_pos hc]
    rfl

/-- Witness for C1 at a concrete input: a degenerate document contour whose
four points coincide gives destination width 0, so the pipeline reports the
geometry error. -/
theorem C1_geometryError_iff_witness :
    ∃ e, enhancePipeline approxId 8 6 [cDeg] warp0 kDelta = Except.error e ∧
      e = PipeError.geometryError := by
  obtain ⟨e, he⟩ :=
    (C1_geometryError_iff approxId 8 6 [cDeg] warp0 kDelta).1.mpr (by decide)
  exact ⟨e, he, (C1_geometryError_iff approxId 8 6 [cDeg] warp0 kDelta).2 e he⟩

/-- C6 counterexample: on a 1x1 input the edge map is empty (a 1x1 raster
has no gradient), so the contour list is empty; the full-frame fallback is
the unit square, its destination width and height are both 1, and the
pipeline completes: no GeometryError is raised, contradicting the claim. -/
theorem C6_counterexample :
    (enhancePipeline approxId 1 1 [] warp0 kDelta).isOk = true := by decide

/-- When each of the four labels has a strict extremizer among the quad
points, `reorder` returns exactly those four points. -/
theorem reorder_eq_of_strict (q : Quad) (TL TR BR BL : Point)
    (htl : ∃ i, get4 q i = TL) (htr : ∃ i, get4 q i = TR)
    (hbr : ∃ i, get4 q i = BR) (hbl : ∃ i, get4 q i = BL)
    (stl : ∀ i, get4 q i ≠ TL → sumXY TL < sumXY (get4 q i))
    (str : ∀ i, get4 q i ≠ TR → diffYX TR < diffYX (get4 q i))
    (sbr : ∀ i, get4 q i ≠ BR → sumXY (get4 q i) < sumXY BR)
    (sbl : ∀ i, get4 q i ≠ BL → diffYX (get4 q i) < diffYX BL) :
    reorder q = ⟨TL, TR, BR, BL⟩ := by
  have h1 := get4_argmin4_eq q sumXY TL htl stl
  have h2 := get4_argmin4_eq q diffYX TR htr str
  have h3 := get4_argmax4_eq q sumXY BR hbr sbr
  have h4 := get4_argmax4_eq q diffYX BL hbl sbl
  show CornerSet.mk _ _ _ _ = _
  rw [h1, h2, h3, h4]

/-- On the full-frame fallback quad the corner ordering recovers the four
frame corners in canonical order. -/
theorem reorder_fullFrame (W H : ℕ) (hW : 1 ≤ W) (hH : 1 ≤ H) :
    reorder (toQuad (fullFrame W H)) =
      ⟨((0 : ℤ), (0 : ℤ)), ((W : ℤ), (0 : ℤ)), ((W : ℤ), (H : ℤ)), ((0 : ℤ), (H : ℤ))⟩ := by
  have hW' : (1 : ℤ) ≤ (W : ℤ) := by exact_mod_cast hW
  have hH' : (1 : ℤ) ≤ (H : ℤ) := by exact_mod_cast hH
  have hq0 : get4 (toQuad (fullFrame W H)) 0 = ((0 : ℤ), (0 : ℤ)) := rfl
  have hq1 : get4 (toQuad (fullFrame W H)) 1 = ((W : ℤ), (0 : ℤ)) := rfl
  have hq2 : get4 (toQuad (fullFrame W H)) 2 = ((W : ℤ), (H : ℤ)) := rfl
  have hq3 : get4 (toQuad (fullFrame W H)) 3 = ((0 : ℤ), (H : ℤ)) := rfl
  apply reorder_eq_of_strict
  · exact ⟨0, hq0⟩
  · exact ⟨1, hq1⟩
  · exact ⟨2, hq2⟩
  · exact ⟨3, hq3⟩
  · apply fin4_all
    refine ⟨fun h => absurd hq0 h, fun _ => ?_, fun _ => ?_, fun _ => ?_⟩ <;>
      simp only [hq0, hq1, hq2, hq3, sumXY, diffYX] <;> omega
  · apply fin4_all
    refine ⟨fun _ => ?_, fun h => absurd hq1 h, fun _ => ?_, fun _ => ?_⟩ <;>
      simp only [hq0, hq1, hq2, hq3, sumXY, diffYX] <;> omega
  · apply fin4_all
    refine ⟨fun _ => ?_, fun _ => ?_, fun h => absurd hq2 h, fun _ => ?_⟩ <;>
      simp only [hq0, hq1, hq2, hq3, sumXY, diffYX] <;> omega
  · apply fin4_all
    refine ⟨fun _ => ?_, fun _ => ?_, fun _ => ?_, fun h => absurd hq3 h⟩ <;>
      simp only [hq0, hq1, hq2, hq3, sumXY, diffYX] <;> omega

/-- The destination size of the full-frame quad is the image size itself. -/
theorem dstSize_fullFrame (W H : ℕ) (hW : 1 ≤ W) (hH : 1 ≤ H) :
    dstWidth (reorder (toQuad (fullFrame W H))) = W ∧
    dstHeight (reorder (toQuad (fullFrame W H))) = H := by
  rw [reorder_fullFrame W H hW hH]
  constructor
  · show isqrt (max (sqDist ((W : ℤ), (H : ℤ)) (0, (H : ℤ))) (sqDist ((W : ℤ), 0) (0, 0))) = W
    simp [sqDist, isqrt_sq]
  · show isqrt (max (sqDist ((W : ℤ), (0 : ℤ)) ((W : ℤ), (H : ℤ))) (sqDist (0, 0) (0, (H : ℤ)))) = H
    simp [sqDist, isqrt_sq]

/-- C5: on a blank (edge-free) image the contour list is empty; the
selector returns the full-frame candidate without failing, and the pipeline
completes with a single-channel strictly binary raster of exactly the
input's size, hence of the input's aspect ratio. -/
theorem C5_blank_image_fallback (approx : Contour → Contour) (W H : ℕ)
    (warp : ℕ → ℕ → ℕ) (k : Kern) (hW : 1 ≤ W) (hH : 1 ≤ H) :
    selectDoc approx W H [] = fullFrame W H ∧
    ∃ out, enhancePipeline approx W H [] warp k = Except.ok out ∧
      out.W = W ∧ out.H = H ∧ out.W * H = out.H * W ∧
      ∀ x y, out.pix x y = 0 ∨ out.pix x y = 255 := by
  have hd := dstSize_fullFrame W H hW hH
  have hsel : selectDoc approx W H [] = fullFrame W H := rfl
  have hrect : rectify (reorder (toQuad (fullFrame W H))) warp =
      Except.ok ⟨dstWidth (reorder (toQuad (fullFrame W H))),
        dstHeight (reorder (toQuad (fullFrame W H))), warp⟩ := by
    unfold rectify
    refine if_neg ?_
    rw [hd.1, hd.2]
    omega
  refine ⟨hsel, ?_⟩
  unfold enhancePipeline
  rw [hsel, hrect]
  refine ⟨_, rfl, hd.1, hd.2, ?_, ?_⟩
  · show dstWidth (reorder (toQuad (fullFrame W H))) * H =
      dstHeight (reorder (toQuad (fullFrame W H))) * W
    rw [hd.1, hd.2, Nat.mul_comm]
  · intro x y
    exact binarizeImg_pix_mem k _ x y

/-- C6 amended: a 1x1 input does not abort: the contour list of a 1x1 image
is empty, the full-frame fallback yields the unit square with destination
width and height both 1 (positive), and the pipeline completes with a 1x1
output raster instead of raising a GeometryError. -/
theorem C6_one_by_one_completes (approx : Contour → Contour)
    (warp : ℕ → ℕ → ℕ) (k : Kern) :
    dstWidth (reorder (toQuad (selectDoc approx 1 1 []))) = 1 ∧
    dstHeight (reorder (toQuad (selectDoc approx 1 1 []))) = 1 ∧
    ∃ out, enhancePipeline approx 1 1 [] warp k = Except.ok out ∧
      out.W = 1 ∧ out.H = 1 := by
  have hd := dstSize_fullFrame 1 1 le_rfl le_rfl
  have hsel : selectDoc approx 1 1 [] = fullFrame 1 1 := rfl
  refine ⟨by rw [hsel]; exact hd.1, by rw [hsel]; exact hd.2, ?_⟩
  unfold enhancePipeline rectify
  rw [hsel, hd.1, hd.2, if_neg (by omega)]
  exact ⟨binarizeImg k ⟨1, 1, warp⟩, rfl, rfl, rfl⟩

/-- Witness for C5 at a concrete 2x3 blank image. -/
theorem C5_blank_image_fallback_witness :
    ∃ out, enhancePipeline approxId 2 3 [] warp0 kDelta = Except.ok out ∧
      out.W = 2 ∧ out.H = 3 ∧ out.W * 3 = out.H * 2 ∧
      ∀ x y, out.pix x y = 0 ∨ out.pix x y = 255 :=
  (C5_blank_image_fallback approxId 2 3 warp0 kDelta (by decide) (by decide)).2

theorem find?_eq_of_first {α : Type} (p : α → Bool) (d : α) (l : List α) :
    ∀ i, i < l.length → p (l.getD i d) = true →
      (∀ j, j < i → p (l.getD j d) = false) → l.find? p = some (l.getD i d) := by
  induction l with
  | nil =>
    intro i h
    exact absurd h (by simp)
  | cons x xs ih =>
    intro i hi hp hj
    cases i with
    | zero =>
      simp only [List.getD_cons_zero] at hp ⊢
      rw [List.find?_cons_of_pos _ hp]
    | succ n =>
      have hx : p x = false := by simpa using hj 0 (Nat.succ_pos n)
      rw [List.find?_cons_of_neg _ (by simp [hx])]
      simp only [List.getD_cons_succ] at hp ⊢
      exact ih n (by simpa using hi) hp fun j hjn => by
        simpa using hj (j + 1) (Nat.succ_lt_succ hjn)

/-- C2: the selector scans contours in descending-area order (the scanned
sequence is sorted by area, descending, and is a permutation of the input
contours), accepts the approximation of the first contour whose
approximation has exactly 4 vertices and stops there, and if no contour
qualifies — in particular on the empty sequence — it returns the
full-frame candidate (0,0), (W,0), (W,H), (0,H) instead of failing. -/
theorem C2_selector_first_match (approx : Contour → Contour) (W H : ℕ)
    (contours : List Contour) :
    List.Sorted areaGe (sortContours contours) ∧
    (sortContours contours).Perm contours ∧
    (∀ i, i < (sortContours contours).length →
      (approx ((sortContours contours).getD i [])).length = 4 →
      (∀ j, j < i → (approx ((sortContours contours).getD j [])).length ≠ 4) →
      selectDoc approx W H contours = approx ((sortContours contours).getD i [])) ∧
    ((∀ c ∈ contours, (approx c).length ≠ 4) →
      selectDoc approx W H contours = fullFrame W H) := by
  refine ⟨sortContours_sorted contours, sortContours_perm contours, ?_, ?_⟩
  · intro i hi hp hj
    unfold selectDoc
    rw [find?_eq_of_first (fun c => (approx c).length == 4) [] (sortContours contours) i hi
      (by simpa using hp) (fun j hjj => by simpa using hj j hjj)]
  · intro hnone
    unfold selectDoc
    have hfind : (sortContours contours).find? (fun c => (approx c).length == 4) = none := by
      rw [List.find?_eq_none]
      intro c hc
      simpa using hnone c ((sortContours_perm contours).mem_iff.mp hc)
    rw [hfind]

/-- Contour with 5 vertices and the larger area. -/
def cBig : Contour := [(0, 0), (9, 0), (9, 9), (5, 9), (0, 9)]

/-- Contour with 4 vertices and the smaller area. -/
def cSmall : Contour := [(0, 0), (3, 0), (3, 2), (0, 2)]

/-- Witness for C2 at a concrete input: the larger 5-vertex contour is
scanned first and rejected, the smaller 4-vertex one is accepted. -/
theorem C2_selector_first_match_witness :
    selectDoc approxId 7 9 [cSmall, cBig] =
      approxId ((sortContours [cSmall, cBig]).getD 1 []) :=
  (C2_selector_first_match approxId 7 9 [cSmall, cBig]).2.2.1 1 (by decide) (by decide)
    (fun j hj => by
      interval_cases j
      decide)

theorem get4_mem (q : Quad) : ∀ i, get4 q i ∈ [q.p0, q.p1, q.p2, q.p3] := by
  apply fin4_all
  refine ⟨?_, ?_, ?_, ?_⟩ <;> simp [get4]

theorem exists_get4_of_mem (q : Quad) (x : Point)
    (h : x ∈ [q.p0, q.p1, q.p2, q.p3]) : ∃ i, get4 q i = x := by
  simp only [List.mem_cons, List.not_mem_nil, or_false] at h
  rcases h with h | h | h | h
  · exact ⟨0, h.symm⟩
  · exact ⟨1, h.symm⟩
  · exact ⟨2, h.symm⟩
  · exact ⟨3, h.symm⟩

/-- Convexity of a labeled corner set, traversed TL → TR → BR → BL: all
four successive edge cross products share the same strict sign. -/
def isConvex (cs : CornerSet) : Prop :=
  (0 < cross2 (cs.tr - cs.tl) (cs.br - cs.tr) ∧
   0 < cross2 (cs.br - cs.tr) (cs.bl - cs.br) ∧
   0 < cross2 (cs.bl - cs.br) (cs.tl - cs.bl) ∧
   0 < cross2 (cs.tl - cs.bl) (cs.tr - cs.tl)) ∨
  (cross2 (cs.tr - cs.tl) (cs.br - cs.tr) < 0 ∧
   cross2 (cs.br - cs.tr) (cs.bl - cs.br) < 0 ∧
   cross2 (cs.bl - cs.br) (cs.tl - cs.bl) < 0 ∧
   cross2 (cs.tl - cs.bl) (cs.tr - cs.tl) < 0)

/-- On any quad whose point multiset consists of the four corners of a
parallelogram `p, p+u, p+u+v, p+v` with `u` pointing rightward and `v`
pointing downward (roughly axis-facing), the corner ordering recovers the
four corners with their canonical labels. -/
theorem reorder_parallelogram (p u v : Point) (q : Quad)
    (hperm : [q.p0, q.p1, q.p2, q.p3].Perm [p, p + u, p + u + v, p + v])
    (hu1 : u.2 < u.1) (hu2 : 0 < u.1 + u.2)
    (hv1 : v.1 < v.2) (hv2 : 0 < v.1 + v.2) :
    reorder q = ⟨p, p + u, p + u + v, p + v⟩ := by
  have hmemP : ∀ x : Point, x ∈ [p, p + u, p + u + v, p + v] → x ∈ [q.p0, q.p1, q.p2, q.p3] :=
    fun x => hperm.mem_iff.mpr
  have hmemQ : ∀ i, get4 q i ∈ [p, p + u, p + u + v, p + v] :=
    fun i => hperm.mem_iff.mp (get4_mem q i)
  have ktl : ∀ x : Point, x ∈ [p, p + u, p + u + v, p + v] → x ≠ p →
      sumXY p < sumXY x := by
    intro x hx hne
    simp only [List.mem_cons, List.not_mem_nil, or_false] at hx
    rcases hx with rfl | rfl | rfl | rfl
    · exact absurd rfl hne
    · simp only [sumXY, Prod.fst_add, Prod.snd_add]; omega
    · simp only [sumXY, Prod.fst_add, Prod.snd_add]; omega
    · simp only [sumXY, Prod.fst_add, Prod.snd_add]; omega
  have ktr : ∀ x : Point, x ∈ [p, p + u, p + u + v, p + v] → x ≠ p + u →
      diffYX (p + u) < diffYX x := by
    intro x hx hne
    simp only [List.mem_cons, List.not_mem_nil, or_false] at hx
    rcases hx with rfl | rfl | rfl | rfl
    · simp only [diffYX, Prod.fst_add, Prod.snd_add]; omega
    · exact absurd rfl hne
    · simp only [diffYX, Prod.fst_add, Prod.snd_add]; omega
    · simp only [diffYX, Prod.fst_add, Prod.snd_add]; omega
  have kbr : ∀ x : Point, x ∈ [p, p + u, p + u + v, p + v] → x ≠ p + u + v →
      sumXY x < sumXY (p + u + v) := by
    intro x hx hne
    simp only [List.mem_cons, List.not_mem_nil, or_false] at hx
    rcases hx with rfl | rfl | rfl | rfl
    · simp only [sumXY, Prod.fst_add, Prod.snd_add]; omega
    · simp only [sumXY, Prod.fst_add, Prod.snd_add]; omega
    · exact absurd rfl hne
    · simp only [sumXY, Prod.fst_add, Prod.snd_add]; omega
  have kbl : ∀ x : Point, x ∈ [p, p + u, p + u + v, p + v] → x ≠ p + v →
      diffYX x < diffYX (p + v) := by
    intro x hx hne
    simp only [List.mem_cons, List.not_mem_nil, or_false] at hx
    rcases hx with rfl | rfl | rfl | rfl
    · simp only [diffYX, Prod.fst_add, Prod.snd_add]; omega
    · simp only [diffYX, Prod.fst_add, Prod.snd_add]; omega
    · simp only [diffYX, Prod.fst_add, Prod.snd_add]; omega
    · exact absurd rfl hne
  apply reorder_eq_of_strict
  · exact exists_get4_of_mem q p (hmemP p (by simp))
  · exact exists_get4_of_mem q (p + u) (hmemP (p + u) (by simp))
  · exact exists_get4_of_mem q (p + u + v) (hmemP (p + u + v) (by simp))
  · exact exists_get4_of_mem q (p + v) (hmemP (p + v) (by simp))
  · exact fun i hne => ktl (get4 q i) (hmemQ i) hne
  · exact fun i hne => ktr (get4 q i) (hmemQ i) hne
  · exact fun i hne => kbr (get4 q i) (hmemQ i) hne
  · exact fun i hne => kbl (get4 q i) (hmemQ i) hne

/-- C7: for a QuadCandidate delineating a rectangular document region —
formalized as the four corners, in any input order, of a parallelogram
`p, p+u, p+u+v, p+v` whose edge `u` points rightward (`u.2 < u.1`,
`0 < u.1 + u.2`) and whose edge `v` points downward (`v.1 < v.2`,
`0 < v.1 + v.2`), which covers every axis-aligned rectangle and every
rectangle rotated by less than 45 degrees — the corner ordering returns
the canonical labels, and the resulting CornerSet satisfies
`TL.x ≤ TR.x`, `TL.y ≤ BL.y` and is a convex quadrilateral. -/
theorem C7_document_corner_order (p u v : Point) (q : Quad)
    (hperm : [q.p0, q.p1, q.p2, q.p3].Perm [p, p + u, p + u + v, p + v])
    (hu1 : u.2 < u.1) (hu2 : 0 < u.1 + u.2)
    (hv1 : v.1 < v.2) (hv2 : 0 < v.1 + v.2) :
    reorder q = ⟨p, p + u, p + u + v, p + v⟩ ∧
    (reorder q).tl.1 ≤ (reorder q).tr.1 ∧
    (reorder q).tl.2 ≤ (reorder q).bl.2 ∧
    isConvex (reorder q) := by
  have hre := reorder_parallelogram p u v q hperm hu1 hu2 hv1 hv2
  have hcross : 0 < u.1 * v.2 - u.2 * v.1 := by
    nlinarith [mul_pos (show (0 : ℤ) < u.1 + u.2 by omega)
        (show (0 : ℤ) < v.2 - v.1 by omega),
      mul_pos (show (0 : ℤ) < u.1 - u.2 by omega)
        (show (0 : ℤ) < v.1 + v.2 by omega)]
  refine ⟨hre, ?_, ?_, ?_⟩
  · rw [hre]
    simp only [Prod.fst_add]
    omega
  · rw [hre]
    simp only [Prod.snd_add]
    omega
  · rw [hre]
    refine Or.inl ⟨?_, ?_, ?_, ?_⟩ <;>
      simp only [cross2, Prod.fst_add, Prod.snd_add, Prod.fst_sub, Prod.snd_sub] <;>
      nlinarith [hcross]

/-- Concrete roughly axis-facing parallelogram quad (shuffled input order)
for the C7 and C9 witnesses. -/
def qPar : Quad := ⟨(3, 4), (0, 0), (-1, 3), (4, 1)⟩

/-- Witness for C7 at `qPar`, whose corners are those of the parallelogram
with `p = (0,0)`, `u = (4,1)`, `v = (-1,3)`. -/
theorem C7_document_corner_order_witness :
    reorder qPar = ⟨(0, 0), (0, 0) + (4, 1), (0, 0) + (4, 1) + (-1, 3), (0, 0) + (-1, 3)⟩ :=
  (C7_document_corner_order (0, 0) (4, 1) (-1, 3) qPar (by decide) (by decide)
    (by decide) (by decide) (by decide)).1

/-- Diamond-shaped QuadCandidate on which two labels collide. -/
def qDiamond : Quad := ⟨(1, 0), (2, 1), (1, 2), (0, 1)⟩

/-- C9 counterexample: on the diamond QuadCandidate both `s = x + y` and
`d = y - x` attain their minimum first at the point (1, 0), so the TL and
TR labels select the same point and the four labeled points are not
pairwise distinct. -/
theorem C9_counterexample :
    (reorder qDiamond).tl = (reorder qDiamond).tr ∧
    ¬ ((reorder qDiamond).tl ≠ (reorder qDiamond).tr ∧
       (reorder qDiamond).tl ≠ (reorder qDiamond).br ∧
       (reorder qDiamond).tl ≠ (reorder qDiamond).bl ∧
       (reorder qDiamond).tr ≠ (reorder qDiamond).br ∧
       (reorder qDiamond).tr ≠ (reorder qDiamond).bl ∧
       (reorder qDiamond).br ≠ (reorder qDiamond).bl) := by decide

/-- C9 amended: the four labeled corners need not be pairwise distinct for
an arbitrary QuadCandidate (ties in `s` or `d` can collapse labels); they
are pairwise distinct whenever the candidate is a roughly axis-facing
parallelogram in the sense of the C7 precondition. -/
theorem C9_corners_distinct (p u v : Point) (q : Quad)
    (hperm : [q.p0, q.p1, q.p2, q.p3].Perm [p, p + u, p + u + v, p + v])
    (hu1 : u.2 < u.1) (hu2 : 0 < u.1 + u.2)
    (hv1 : v.1 < v.2) (hv2 : 0 < v.1 + v.2) :
    (reorder q).tl ≠ (reorder q).tr ∧
    (reorder q).tl ≠ (reorder q).br ∧
    (reorder q).tl ≠ (reorder q).bl ∧
    (reorder q).tr ≠ (reorder q).br ∧
    (reorder q).tr ≠ (reorder q).bl ∧
    (reorder q).br ≠ (reorder q).bl := by
  have hre := reorder_parallelogram p u v q hperm hu1 hu2 hv1 hv2
  rw [hre]
  refine ⟨?_, ?_, ?_, ?_, ?_, ?_⟩ <;> intro h <;>
    (have h1 := congrArg Prod.fst h
     have h2 := congrArg Prod.snd h
     simp only [Prod.fst_add, Prod.snd_add] at h1 h2
     omega)

/-- Witness for C9 at the concrete parallelogram quad `qPar`. -/
theorem C9_corners_distinct_witness :
    (reorder qPar).tl ≠ (reorder qPar).tr :=
  (C9_corners_distinct (0, 0) (4, 1) (-1, 3) qPar (by decide) (by decide)
    (by decide) (by decide) (by decide)).1

theorem binarizePix_eq (k : Kern) (img : Img) (x y : ℕ) :
    binarizePix k img x y =
      if wsum k img x y < (img.pixAt x y + 10) * ksum k then 255 else 0 := rfl

theorem wsum_le (k : Kern) (img : Img) (x y : ℕ)
    (hpix : ∀ u v, img.pixAt u v ≤ 255) :
    wsum k img x y ≤ 255 * ksum k := by
  unfold wsum ksum
  rw [Finset.mul_sum]
  refine Finset.sum_le_sum fun i _ => ?_
  rw [Finset.mul_sum]
  refine Finset.sum_le_sum fun j _ => ?_
  calc k i j * img.pixAt (x + i - 5) (y + j - 5) ≤ k i j * 255 :=
        Nat.mul_le_mul le_rfl (hpix _ _)
    _ = 255 * k i j := Nat.mul_comm _ _

theorem wsum_mono (k : Kern) (a b : Img) (x y : ℕ)
    (h : ∀ u v, a.pixAt u v ≤ b.pixAt u v) :
    wsum k a x y ≤ wsum k b x y := by
  unfold wsum
  exact Finset.sum_le_sum fun i _ => Finset.sum_le_sum fun j _ =>
    Nat.mul_le_mul le_rfl (h _ _)

theorem binarizeImg_W (k : Kern) (img : Img) : (binarizeImg k img).W = img.W := by
  simp only [binarizeImg]

theorem binarizeImg_H (k : Kern) (img : Img) : (binarizeImg k img).H = img.H := by
  simp only [binarizeImg]

theorem binarizeImg_pix (k : Kern) (img : Img) (x y : ℕ) :
    (binarizeImg k img).pix x y = binarizePix k img x y := by
  simp only [binarizeImg]

theorem binarizeImg_pixAt (k : Kern) (img : Img) (u v : ℕ) :
    (binarizeImg k img).pixAt u v =
      binarizePix k img (min u (img.W - 1)) (min v (img.H - 1)) := by
  unfold Img.pixAt
  rw [binarizeImg_W, binarizeImg_H, binarizeImg_pix]

theorem pixAt_clamp (img : Img) (u v : ℕ) :
    img.pixAt (min u (img.W - 1)) (min v (img.H - 1)) = img.pixAt u v := by
  unfold Img.pixAt
  rw [min_assoc, min_self, min_assoc, min_self]

theorem binarize_binary (k : Kern) (img : Img) (u v : ℕ) :
    (binarizeImg k img).pixAt u v = 0 ∨ (binarizeImg k img).pixAt u v = 255 := by
  rw [binarizeImg_pixAt]
  exact binarizePix_mem k img _ _

/-- On a strictly binary image the binarizer result dominates the input
pointwise: pixels at 255 stay at 255, pixels at 0 can only grow. -/
theorem binarize_ge_self (k : Kern) (img : Img) (hk : 0 < ksum k)
    (hbin : ∀ u v, img.pixAt u v = 0 ∨ img.pixAt u v = 255) :
    ∀ u v, img.pixAt u v ≤ (binarizeImg k img).pixAt u v := by
  intro u v
  have hpix : ∀ a b, img.pixAt a b ≤ 255 := fun a b => by
    rcases hbin a b with h | h <;> omega
  rw [binarizeImg_pixAt, ← pixAt_clamp img u v, binarizePix_eq,
    pixAt_clamp img u v]
  rcases hbin u v with h | h
  · rw [h]
    exact Nat.zero_le _
  · rw [h]
    rw [if_pos ?_]
    have hle := wsum_le k img (min u (img.W - 1)) (min v (img.H - 1)) hpix
    omega

/-- C8: the Binarizer (adaptive Gaussian-weighted threshold over an 11x11
window with offset 10, embedded here for an arbitrary nonnegative
fixed-point weight window with positive total weight) is idempotent on
strictly binary images: applying it twice yields the same raster, pixel
for pixel on the whole image, as applying it once. -/
theorem C8_binarizer_idempotent (k : Kern) (img : Img) (hk : 0 < ksum k)
    (hbin : ∀ u v, img.pixAt u v = 0 ∨ img.pixAt u v = 255) :
    (binarizeImg k (binarizeImg k img)).W = (binarizeImg k img).W ∧
    (binarizeImg k (binarizeImg k img)).H = (binarizeImg k img).H ∧
    ∀ x y, x < img.W → y < img.H →
      (binarizeImg k (binarizeImg k img)).pix x y = (binarizeImg k img).pix x y := by
  refine ⟨by rw [binarizeImg_W], by rw [binarizeImg_H], ?_⟩
  intro x y hx hy
  have hpix : ∀ a b, img.pixAt a b ≤ 255 := fun a b => by
    rcases hbin a b with h | h <;> omega
  have hbpix : ∀ a b, (binarizeImg k img).pixAt a b ≤ 255 := fun a b => by
    rcases binarize_binary k img a b with h | h <;> omega
  have h1 : wsum k img x y ≤ 255 * ksum k := wsum_le k img x y hpix
  have h2 : wsum k (binarizeImg k img) x y ≤ 255 * ksum k :=
    wsum_le k (binarizeImg k img) x y hbpix
  have h3 : wsum k img x y ≤ wsum k (binarizeImg k img) x y :=
    wsum_mono k img (binarizeImg k img) x y (binarize_ge_self k img hk hbin)
  have hclx : min x (img.W - 1) = x := Nat.min_eq_left (by omega)
  have hcly : min y (img.H - 1) = y := Nat.min_eq_left (by omega)
  have hpixb : (binarizeImg k img).pixAt x y = binarizePix k img x y := by
    rw [binarizeImg_pixAt, hclx, hcly]
  have hpixi : img.pixAt x y = img.pix x y := by
    unfold Img.pixAt
    rw [hclx, hcly]
  simp only [binarizeImg_pix]
  rw [binarizePix_eq k (binarizeImg k img) x y, hpixb,
    binarizePix_eq k img x y]
  rcases hbin x y with hA | hA
  · rw [hA]
    by_cases hc : wsum k img x y < (0 + 10) * ksum k
    · rw [if_pos hc]
      rw [if_pos (show wsum k (binarizeImg k img) x y < (255 + 10) * ksum k by omega)]
    · rw [if_neg hc]
      rw [if_neg (show ¬ wsum k (binarizeImg k img) x y < (0 + 10) * ksum k by omega)]
  · rw [hA]
    rw [if_pos (show wsum k img x y < (255 + 10) * ksum k by omega)]
    rw [if_pos (show wsum k (binarizeImg k img) x y < (255 + 10) * ksum k by omega)]

/-- All-black 1x1 image for the C8 witness. -/
def imgZero : Img := ⟨1, 1, fun _ _ => 0⟩

/-- Witness for C8 at the delta kernel and the all-black 1x1 image (whose
single pixel flips to 255 after one application and then stays). -/
theorem C8_binarizer_idempotent_witness :
    (binarizeImg kDelta (binarizeImg kDelta imgZero)).pix 0 0 =
      (binarizeImg kDelta imgZero).pix 0 0 :=
  (C8_binarizer_idempotent kDelta imgZero (by decide)
    (fun u v => Or.inl rfl)).2.2 0 0 (by decide) (by decide)

end SM2AF
